import Mathlib

/-!
# A verification development for the PyVRP/HGS CVRPTW core

This file gives a shallow embedding of the solution representation and the
local-search move-evaluation engine of the repository: problem data, time
window segments (TWS), routes, individuals, and the `Exchange<N, M>`
neighbourhood operator family, together with proofs and refutations of the
specification's claims about them.

The `Exchange<N, M>` operator (`evaluate` / `apply`) is translated directly
from `src/pyvrp/cpp/educate/Exchange.h`.  The supporting components
(`TimeWindowSegment`, `Route` caches, `Individual`) are not part of the
provided sources; they are modelled from the specification, with the
repository's own test file `src/hgs/test/test_Individual.cpp` taken as
authoritative where it pins concrete behaviour.  Machine integers are
modelled as `Int` (the spec declares overflow out of scope), except for the
one place where `size_t` wrap-around is itself the subject of a claim
(the `overlap` pre-filter), where the modular arithmetic is made explicit.
-/

namespace VRP

/-- Modelled from the spec: `ProblemData` (§3) — the immutable instance.
Client attributes (demand, service duration, time window) are total maps
from client indices; `dist` is the distance/travel-time matrix.  Client `0`
is the depot. -/
structure Data where
  numClients : Nat
  demand : Nat → Int
  serviceDur : Nat → Int
  twEarly : Nat → Int
  twLate : Nat → Int
  dist : Nat → Nat → Int
  nbVehicles : Nat
  capacity : Int

/-- Modelled from the spec: `PenaltyManager` (§4.4) — the two penalty
multipliers. -/
structure Pen where
  capMult : Int
  twMult : Int

/-- Modelled from the spec: `loadPenalty(load) = max(load − capacity, 0) ·
capacityPenalty` (§4.4). -/
def loadPenalty (d : Data) (p : Pen) (load : Int) : Int :=
  max (load - d.capacity) 0 * p.capMult

/-- Modelled from the spec: `twPenalty(warp) = warp · timeWarpPenalty`
(§4.4). -/
def twPenalty (p : Pen) (warp : Int) : Int :=
  warp * p.twMult

/-- Modelled from the spec: `TimeWindowSegment` (§3) — the algebraic summary
of a contiguous client sub-sequence: end-point indices, duration, time warp,
and the `[earliestStart, latestStart]` window. -/
structure TWS where
  idxFirst : Nat
  idxLast : Nat
  duration : Int
  timeWarp : Int
  twEarly : Int
  twLate : Int
  deriving Repr, DecidableEq

/-- Modelled from the spec: a singleton segment over client `c` has
`duration = serviceDuration(c)`, `timeWarp = 0`,
`[earliestStart, latestStart] = [earliest(c), latest(c)]` (§3). -/
def TWS.single (d : Data) (c : Nat) : TWS :=
  { idxFirst := c, idxLast := c, duration := d.serviceDur c, timeWarp := 0
    twEarly := d.twEarly c, twLate := d.twLate c }

/-- Modelled from the spec: `merge(A, B)` (§3).  The spec fixes
`Δ = A.duration − A.timeWarp + dist(A.idxLast, B.idxFirst)` and the two
components of `waitOrWarp` (`deltaWait = max(B.earliestStart − Δ −
A.latestStart, 0)` and `deltaTimeWarp = max(A.earliestStart + Δ −
B.latestStart, 0)`), and requires the four scalars to be combined "per the
standard Vidal-style recurrence so that `merge` is associative".  The unique
combination meeting that requirement adds `deltaWait` to the duration,
`deltaTimeWarp` to the time warp, and clamps the shifted window of `B` into
the window of `A`; it is the exact composition law of the start-time →
(completion, warp) semantics of segments, which is what makes it
associative. -/
def TWS.merge (d : Data) (A B : TWS) : TWS :=
  let dd := d.dist A.idxLast B.idxFirst
  let delta := A.duration - A.timeWarp + dd
  let deltaWait := max (B.twEarly - delta - A.twLate) 0
  let deltaTW := max (A.twEarly + delta - B.twLate) 0
  { idxFirst := A.idxFirst
    idxLast := B.idxLast
    duration := A.duration + B.duration + dd + deltaWait
    timeWarp := A.timeWarp + B.timeWarp + deltaTW
    twEarly := min (max (B.twEarly - delta) A.twEarly) A.twLate
    twLate := min (max (B.twLate - delta) A.twEarly) A.twLate }

/-- Modelled from the spec: `totalTimeWarp()` returns the segment's internal
time warp (§4.1). -/
def TWS.totalTimeWarp (A : TWS) : Int :=
  A.timeWarp

/-- A well-formed segment has a non-empty start-time window.  Singletons over
well-formed client windows are well-formed, and `merge` preserves it. -/
def TWS.Wf (A : TWS) : Prop :=
  A.twEarly ≤ A.twLate

instance (A : TWS) : Decidable A.Wf := by
  unfold TWS.Wf; infer_instance

theorem TWS.merge_wf (d : Data) (A B : TWS) (hA : A.Wf) (hB : B.Wf) :
    (TWS.merge d A B).Wf := by
  simp only [TWS.merge, TWS.Wf] at *
  omega

set_option maxHeartbeats 2000000 in
theorem TWS.merge_assoc (d : Data) (A B C : TWS)
    (hA : A.Wf) (hB : B.Wf) (_hC : C.Wf) :
    TWS.merge d (TWS.merge d A B) C = TWS.merge d A (TWS.merge d B C) := by
  simp only [TWS.merge, TWS.Wf, TWS.mk.injEq] at *
  refine ⟨trivial, trivial, ?_, ?_, ?_, ?_⟩ <;> omega

/-! ## Routes

A route is represented by its list of client indices (the depot sentinels are
implicit).  `nodesOf` is the full node sequence including both sentinels;
positions are 1-based for clients, with position 0 the starting depot and
position `size + 1` the end depot, as in the spec (§3, Node). -/

/-- The node sequence of a route: start depot, clients, end depot. -/
def nodesOf (r : List Nat) : List Nat :=
  0 :: r ++ [0]

/-- The client index found at a node position of a route (0 outside). -/
def clientAt (r : List Nat) (pos : Nat) : Nat :=
  (nodesOf r).getD pos 0

/-- Sum of consecutive-pair distances along a node sequence —
the variadic `dist(i₁, …, iₖ)` of the spec (§3, ProblemData). -/
def chainDist (d : Data) : List Nat → Int
  | [] => 0
  | [_] => 0
  | x :: y :: t => d.dist x y + chainDist d (y :: t)

/-- Modelled from the spec: `Route::distance()` — depot-to-depot travelled
distance (§3, Route). -/
def routeDist (d : Data) (r : List Nat) : Int :=
  chainDist d (nodesOf r)

/-- Sum of the demands of a list of clients. -/
def sumLoad (d : Data) (r : List Nat) : Int :=
  (r.map d.demand).sum

/-- The TWS of a non-empty node sequence: the left fold of `merge` over the
singletons, as the spec's variadic `merge` prescribes (§3). -/
def twsOf (d : Data) : List Nat → TWS
  | [] => TWS.single d 0
  | c :: rest => rest.foldl (fun acc x => TWS.merge d acc (TWS.single d x)) (TWS.single d c)

/-- Modelled from the spec: `Route::timeWarp()` — the time warp of the whole
depot-bounded node sequence (§3, Route). -/
def routeTW (d : Data) (r : List Nat) : Int :=
  (twsOf d (nodesOf r)).timeWarp

/-- The inclusive node slice of a route between positions `i` and `j`. -/
def slice (r : List Nat) (i j : Nat) : List Nat :=
  ((nodesOf r).drop i).take (j + 1 - i)

/-- Modelled from the spec: `Route::distBetween(i, j)` (§4.2). -/
def distBetween (d : Data) (r : List Nat) (i j : Nat) : Int :=
  chainDist d (slice r i j)

/-- Modelled from the spec: `Route::loadBetween(i, j)` (§4.2). -/
def loadBetween (d : Data) (r : List Nat) (i j : Nat) : Int :=
  sumLoad d (slice r i j)

/-- Modelled from the spec: `Route::twBetween(i, j)` (§4.2). -/
def twBetween (d : Data) (r : List Nat) (i j : Nat) : TWS :=
  twsOf d (slice r i j)

/-- Modelled from the spec: the cached `twBefore` of the node at a position:
the TWS of `[depot … node]` (§3, Node). -/
def twBefore (d : Data) (r : List Nat) (pos : Nat) : TWS :=
  twsOf d ((nodesOf r).take (pos + 1))

/-- Modelled from the spec: the cached `twAfter` of the node at a position:
the TWS of `[node … depot]` (§3, Node). -/
def twAfter (d : Data) (r : List Nat) (pos : Nat) : TWS :=
  twsOf d ((nodesOf r).drop pos)

/-- Modelled from the spec: `Route::hasTimeWarp()`. -/
def routeHasTW (d : Data) (r : List Nat) : Bool :=
  0 < routeTW d r

/-- Modelled from the spec: `Route::isFeasible()` — no excess load and no
time warp. -/
def routeIsFeasible (d : Data) (r : List Nat) : Bool :=
  !(d.capacity < sumLoad d r) && !(routeHasTW d r)

/-! ## Individuals

An `Individual` is its list of routes (exactly `nbVehicles` of them).  The
derived scalars, the neighbour map, the broken-pairs distance and the
validating constructor are modelled from the spec (§4.3) and from the
authoritative tests in `src/hgs/test/test_Individual.cpp`. -/

/-- Total distance over all routes. -/
def totalDist (d : Data) (rs : List (List Nat)) : Int :=
  (rs.map (routeDist d)).sum

/-- Modelled from the spec: total excess load — the sum over routes of
`max(load − capacity, 0)` (§3, Individual). -/
def excessLoad (d : Data) (rs : List (List Nat)) : Int :=
  (rs.map (fun r => max (sumLoad d r - d.capacity) 0)).sum

/-- Total time warp over all routes. -/
def totalTW (d : Data) (rs : List (List Nat)) : Int :=
  (rs.map (routeTW d)).sum

/-- Modelled from the spec: `hasExcessCapacity` (§3, Individual). -/
def hasExcessCapacity (d : Data) (rs : List (List Nat)) : Bool :=
  0 < excessLoad d rs

/-- Modelled from the spec: `hasTimeWarp` (§3, Individual). -/
def hasTimeWarp (d : Data) (rs : List (List Nat)) : Bool :=
  0 < totalTW d rs

/-- Modelled from the spec: `isFeasible = ¬(hasExcessCapacity ∨ hasTimeWarp)`
(§3, Individual). -/
def isFeasible (d : Data) (rs : List (List Nat)) : Bool :=
  !(hasExcessCapacity d rs) && !(hasTimeWarp d rs)

/-- Modelled from the spec: the penalized cost
`cost = distance + capacityPenaltyMultiplier · excessLoad +
timeWarpPenaltyMultiplier · totalTimeWarp` (§4.3). -/
def cost (d : Data) (p : Pen) (rs : List (List Nat)) : Int :=
  totalDist d rs + p.capMult * excessLoad d rs + p.twMult * totalTW d rs

/-- The (predecessor, successor) pair of client `c` inside one route, with
depot sentinel 0 at the route ends; `none` if `c` does not occur.  The
accumulator carries the client preceding the current list head. -/
def nbrsInAux (c : Nat) : Nat → List Nat → Option (Nat × Nat)
  | _, [] => none
  | prev, x :: rest =>
    if x = c then some (prev, rest.headD 0) else nbrsInAux c x rest

/-- `nbrsIn r c`: the neighbour pair of `c` in route `r`, if present. -/
def nbrsIn (r : List Nat) (c : Nat) : Option (Nat × Nat) :=
  nbrsInAux c 0 r

/-- Modelled from the spec: the neighbours view (§6) — an array indexed by
client ID, each entry the `(predecessor, successor)` pair within the
client's route, `(0, 0)` for the depot index and for absent clients. -/
def neighbours : List (List Nat) → Nat → Nat × Nat
  | [], _ => (0, 0)
  | r :: rest, c => (nbrsIn r c).getD (neighbours rest c)

/-- The neighbours entry of index `c` (depot index 0 maps to `(0, 0)`). -/
def nbEntry (rs : List (List Nat)) (c : Nat) : Nat × Nat :=
  if c = 0 then (0, 0) else neighbours rs c

/-- Modelled from the spec: the per-client contribution to
`brokenPairsDistance` (§4.3).  The spec's written contribution
`(p₁ ≠ p₂ ∧ p₁ ≠ s₂) + (s₁ ≠ s₂ ∧ s₁ ≠ p₂)` is inconsistent with the values
the repository's own test `IndividualTest.brokenPairsDistance` asserts (it
yields 4 for the first pair, the test requires 2); the modelled contribution
keeps the successor term verbatim and counts the depot-to-first-client edge
through the predecessor side only when it exists in `this` (`tPred = 0` and
`tSucc ≠ 0`) and is broken in `other`.  This reproduces every value asserted
by the test: each route edge of `this` absent from `other`'s adjacencies
counts once. -/
def bpdTerm (t o : Nat × Nat) : Int :=
  (if t.2 ≠ o.2 ∧ t.2 ≠ o.1 then 1 else 0) +
    (if t.1 = 0 ∧ t.2 ≠ 0 ∧ o.1 ≠ 0 ∧ o.2 ≠ 0 then 1 else 0)

/-- Modelled from the spec: `brokenPairsDistance` (§4.3) — the sum of the
per-client contributions over clients `1 … numClients`. -/
def brokenPairsDistance (d : Data) (rs1 rs2 : List (List Nat)) : Int :=
  ((List.range d.numClients).map
    (fun i => bpdTerm (nbEntry rs1 (i + 1)) (nbEntry rs2 (i + 1)))).sum

/-- Modelled from the spec: the validating `Individual` constructor
(§4.3, §6, §7) with the route-count check the repository's test
`IndividualTest.routeConstructorThrows` pins down: `[[1,2],[4,2]]` with
three vehicles must fail and `[[1,2],[4,2],[]]` must succeed, so the check
is `routes.size() == nbVehicles` (together with the spec's client-range
check); in particular a duplicated client is *not* rejected.  On success the
empty routes are moved behind the non-empty ones (stable). -/
def mkIndividual (d : Data) (rs : List (List Nat)) :
    Except String (List (List Nat)) :=
  if rs.length ≠ d.nbVehicles then .error "invalid-routes"
  else if rs.any (fun r => r.any (fun c => c = 0 || d.numClients < c)) then
    .error "invalid-routes"
  else .ok (rs.filter (· ≠ []) ++ rs.filter (· = []))

/-! ## A concrete witness instance

`data/OkSmall.txt` itself is not among the sources; `okSmall` is a concrete
instance consistent with every fact the spec (§8) and the tests state about
it: 4 customers, 3 vehicles, capacity 10, `dist 0 1 = 1544`,
`dist 1 3 = 1427`, client 1 window `[15600, 22500]` with service 360,
client 4 window `[8400, 15300]`, total demand 18.  It is used to witness
the parameterized theorems below. -/

def okDist : Nat → Nat → Int := fun i j =>
  ((([[0, 1544, 1944, 1931, 1476],
      [1726, 0, 1992, 1427, 1593],
      [1965, 1975, 0, 621, 1090],
      [2063, 1433, 647, 0, 818],
      [1475, 1594, 1090, 828, 0]] : List (List Int)).getD i []).getD j 0)

def okSmall : Data where
  numClients := 4
  demand := fun c => ([0, 5, 5, 3, 5] : List Int).getD c 0
  serviceDur := fun c => ([0, 360, 360, 420, 360] : List Int).getD c 0
  twEarly := fun c => ([0, 15600, 12000, 8400, 8400] : List Int).getD c 0
  twLate := fun c => ([45000, 22500, 19500, 15300, 15300] : List Int).getD c 0
  dist := okDist
  nbVehicles := 3
  capacity := 10

/-! ## Supporting lemmas -/

theorem twsOf_timeWarp_nonneg (d : Data) (xs : List Nat) :
    0 ≤ (twsOf d xs).timeWarp := by
  cases xs with
  | nil => simp [twsOf, TWS.single]
  | cons c rest =>
    simp only [twsOf]
    have key : ∀ (l : List Nat) (acc : TWS), 0 ≤ acc.timeWarp →
        0 ≤ (l.foldl (fun a x => TWS.merge d a (TWS.single d x)) acc).timeWarp := by
      intro l
      induction l with
      | nil => intro acc h; simpa using h
      | cons y ys ih =>
        intro acc h
        refine ih _ ?_
        simp only [TWS.merge, TWS.single]
        have := le_max_right (acc.twEarly +
          (acc.duration - acc.timeWarp + d.dist acc.idxLast y) - d.twLate y) (0 : Int)
        omega
    exact key rest _ (by simp [TWS.single])

theorem excessLoad_nonneg (d : Data) (rs : List (List Nat)) :
    0 ≤ excessLoad d rs := by
  unfold excessLoad
  induction rs with
  | nil => simp
  | cons r rest ih =>
    simp only [List.map_cons, List.sum_cons]
    have := le_max_right (sumLoad d r - d.capacity) (0 : Int)
    omega

theorem totalTW_nonneg (d : Data) (rs : List (List Nat)) :
    0 ≤ totalTW d rs := by
  simp only [totalTW]
  induction rs with
  | nil => simp
  | cons r rest ih =>
    simp only [List.map_cons, List.sum_cons]
    have h1 := twsOf_timeWarp_nonneg d (nodesOf r)
    have h2 : routeTW d r = (twsOf d (nodesOf r)).timeWarp := rfl
    omega

theorem sum_le_two_mul_length (l : List Int) (h : ∀ x ∈ l, x ≤ 2) :
    l.sum ≤ 2 * l.length := by
  induction l with
  | nil => simp
  | cons x xs ih =>
    simp only [List.sum_cons, List.length_cons]
    have hx : x ≤ 2 := h x (by simp)
    have := ih (fun y hy => h y (by simp [hy]))
    push_cast
    omega

theorem bpdTerm_le_two (t o : Nat × Nat) : bpdTerm t o ≤ 2 := by
  unfold bpdTerm
  split <;> split <;> omega

theorem bpdTerm_self (t : Nat × Nat) : bpdTerm t t = 0 := by
  unfold bpdTerm
  have h1 : ¬(t.2 ≠ t.2 ∧ t.2 ≠ t.1) := by tauto
  have h2 : ¬(t.1 = 0 ∧ t.2 ≠ 0 ∧ t.1 ≠ 0 ∧ t.2 ≠ 0) := by tauto
  rw [if_neg h1, if_neg h2]
  ring

/-! ## Claims about the Individual -/

/-- **C3.** For every Individual, `cost()` equals
`distance + capacityMultiplier·excessLoad + twMultiplier·totalTimeWarp`;
for a feasible Individual the cost reduces to the travelled distance; and on
any instance satisfying the facts stated about OkSmall, the time warp of
route `[1, 3]` equals `15600 + 360 + dist(1, 3) − 15300`. -/
theorem claim_C3_cost :
    (∀ (d : Data) (p : Pen) (rs : List (List Nat)),
      cost d p rs =
        totalDist d rs + p.capMult * excessLoad d rs + p.twMult * totalTW d rs)
    ∧ (∀ (d : Data) (p : Pen) (rs : List (List Nat)),
        isFeasible d rs = true → cost d p rs = totalDist d rs)
    ∧ (∀ d : Data,
        d.twEarly 0 = 0 → d.twLate 0 = 45000 → d.serviceDur 0 = 0 →
        d.dist 0 1 = 1544 → d.twEarly 1 = 15600 → d.twLate 1 = 22500 →
        d.serviceDur 1 = 360 → d.twEarly 3 = 8400 → d.twLate 3 = 15300 →
        0 ≤ d.dist 1 3 → 0 ≤ d.serviceDur 3 → 0 ≤ d.dist 3 0 →
        d.serviceDur 3 + d.dist 3 0 ≤ 29700 →
        routeTW d [1, 3] = 15600 + 360 + d.dist 1 3 - 15300) := by
  refine ⟨fun d p rs => rfl, ?_, ?_⟩
  · intro d p rs hfeas
    have h1 := excessLoad_nonneg d rs
    have h2 := totalTW_nonneg d rs
    have hx : ¬ (0 < excessLoad d rs) := by
      intro hlt
      simp [isFeasible, hasExcessCapacity, hasTimeWarp, hlt] at hfeas
    have hy : ¬ (0 < totalTW d rs) := by
      intro hlt
      simp [isFeasible, hasExcessCapacity, hasTimeWarp, hlt] at hfeas
    have he : excessLoad d rs = 0 := by omega
    have ht : totalTW d rs = 0 := by omega
    unfold cost
    rw [he, ht]
    ring
  · intro d h0e h0l h0s h01 h1e h1l h1s h3e h3l hd13 hs3 hd30 hbound
    have : nodesOf [1, 3] = [0, 1, 3, 0] := rfl
    simp only [routeTW, this, twsOf, List.foldl, TWS.merge, TWS.single]
    rw [h0e, h0l, h0s, h01, h1e, h1l, h1s, h3e, h3l]
    omega

/-- **C3 witness**: the parameterized parts of C3 instantiated on the
concrete `okSmall` instance and the routes `[[1,3],[2,4],[]]` of the
time-warp scenario. -/
theorem claim_C3_cost_witness :
    cost okSmall ⟨20, 6⟩ [[1, 3], [2, 4], []] =
      totalDist okSmall [[1, 3], [2, 4], []] +
        20 * excessLoad okSmall [[1, 3], [2, 4], []] +
        6 * totalTW okSmall [[1, 3], [2, 4], []]
    ∧ isFeasible okSmall [[1, 2], [3], [4]] = true
    ∧ cost okSmall ⟨20, 6⟩ [[1, 2], [3], [4]] =
        totalDist okSmall [[1, 2], [3], [4]]
    ∧ routeTW okSmall [1, 3] = 15600 + 360 + okSmall.dist 1 3 - 15300 := by
  refine ⟨claim_C3_cost.1 okSmall ⟨20, 6⟩ _, by decide, ?_, ?_⟩
  · exact claim_C3_cost.2.1 okSmall ⟨20, 6⟩ _ (by decide)
  · exact claim_C3_cost.2.2 okSmall (by decide) (by decide) (by decide)
      (by decide) (by decide) (by decide) (by decide) (by decide) (by decide)
      (by decide) (by decide) (by decide) (by decide)

/-- **C4** (refuted as stated): the input `[[1, 2], [4, 2], []]` places
client 2 in two different routes, yet the constructor succeeds — exactly the
behaviour the repository's own test `routeConstructorThrows` asserts
(`ASSERT_NO_THROW`), so duplicated clients are not rejected at
construction. -/
theorem claim_C4_counterexample :
    (2 ∈ ([1, 2] : List Nat) ∧ 2 ∈ ([4, 2] : List Nat)) ∧
    mkIndividual okSmall [[1, 2], [4, 2], []] = .ok [[1, 2], [4, 2], []] :=
  ⟨by decide, rfl⟩

/-- **C4** (amended): the constructor raises *invalid-routes* exactly when
the number of supplied routes differs from `nbVehicles` or some client index
is out of range (`0` or `> numClients`); a client occurring in several
routes is not detected. -/
theorem claim_C4_amended :
    ∀ (d : Data) (rs : List (List Nat)),
      (∃ e, mkIndividual d rs = .error e) ↔
        (rs.length ≠ d.nbVehicles ∨
          ∃ r ∈ rs, ∃ c ∈ r, c = 0 ∨ d.numClients < c) := by
  intro d rs
  by_cases h1 : rs.length ≠ d.nbVehicles
  · simp [mkIndividual, h1]
  · by_cases h2 : rs.any (fun r => r.any (fun c => c = 0 || d.numClients < c)) = true
    · simp only [mkIndividual, if_neg h1, if_pos h2]
      simp only [List.any_eq_true, Bool.or_eq_true, decide_eq_true_eq] at h2
      constructor
      · intro _
        exact Or.inr h2
      · intro _
        exact ⟨"invalid-routes", rfl⟩
    · simp only [mkIndividual, if_neg h1, if_neg h2]
      simp only [List.any_eq_true, Bool.or_eq_true, decide_eq_true_eq] at h2
      simp [h1, h2]

/-- **C5.** On any instance with three vehicles and at least four clients
(as OkSmall has), constructing an Individual from `[[1,2],[4,2]]` fails with
*invalid-routes*, while `[[1,2],[4,2],[]]` (an empty third route appended)
succeeds. -/
theorem claim_C5_construction :
    ∀ d : Data, d.nbVehicles = 3 → 4 ≤ d.numClients →
      mkIndividual d [[1, 2], [4, 2]] = .error "invalid-routes" ∧
      mkIndividual d [[1, 2], [4, 2], []] = .ok [[1, 2], [4, 2], []] := by
  intro d h3 h4
  constructor
  · simp [mkIndividual, h3]
  · have hr : ¬((([[1, 2], [4, 2], []] : List (List Nat))).any
        (fun r => r.any (fun c => c = 0 || d.numClients < c)) = true) := by
      simp only [List.any_eq_true, Bool.or_eq_true, decide_eq_true_eq]
      rintro ⟨r, hr, c, hc, h⟩
      simp only [List.mem_cons, List.not_mem_nil, or_false] at hr
      rcases hr with rfl | rfl | rfl <;> simp at hc <;>
        rcases hc with rfl | rfl <;> omega
    simp [mkIndividual, h3, hr]

/-- **C5 witness**: `claim_C5_construction` instantiated at `okSmall`. -/
theorem claim_C5_construction_witness :
    mkIndividual okSmall [[1, 2], [4, 2]] = .error "invalid-routes" ∧
    mkIndividual okSmall [[1, 2], [4, 2], []] = .ok [[1, 2], [4, 2], []] :=
  claim_C5_construction okSmall rfl (by decide)

/-- **C7** (refuted as stated): `brokenPairsDistance` is not symmetric.  On
OkSmall the two valid Individuals `[[1],[2],[3,4]]` and `[[1,2],[3,4],[]]`
(each client routed exactly once) give `d(A,B) = 0` but `d(B,A) = 1`. -/
theorem claim_C7_counterexample :
    brokenPairsDistance okSmall [[1], [2], [3, 4]] [[1, 2], [3, 4], []] = 0 ∧
    brokenPairsDistance okSmall [[1, 2], [3, 4], []] [[1], [2], [3, 4]] = 1 ∧
    mkIndividual okSmall [[1], [2], [3, 4]] = .ok [[1], [2], [3, 4]] ∧
    mkIndividual okSmall [[1, 2], [3, 4], []] = .ok [[1, 2], [3, 4], []] :=
  ⟨by decide, by decide, rfl, rfl⟩

/-- **C7** (amended): `brokenPairsDistance` satisfies `d(A, A) = 0`, is
bounded above by `2 · numClients`, and takes the tested values on the three
OkSmall pairs — in both directions, so those particular pairs are symmetric —
but it is not symmetric for all pairs. -/
theorem claim_C7_amended :
    (∀ (d : Data) (rs : List (List Nat)), brokenPairsDistance d rs rs = 0)
    ∧ (∀ (d : Data) (rs1 rs2 : List (List Nat)),
        brokenPairsDistance d rs1 rs2 ≤ 2 * (d.numClients : Int))
    ∧ (brokenPairsDistance okSmall [[1,2,3,4],[],[]] [[1,2],[3],[4]] = 2
       ∧ brokenPairsDistance okSmall [[1,2],[3],[4]] [[1,2,3,4],[],[]] = 2
       ∧ brokenPairsDistance okSmall [[1,2,3,4],[],[]] [[3],[4,1,2],[]] = 3
       ∧ brokenPairsDistance okSmall [[3],[4,1,2],[]] [[1,2,3,4],[],[]] = 3
       ∧ brokenPairsDistance okSmall [[1,2],[3],[4]] [[3],[4,1,2],[]] = 1
       ∧ brokenPairsDistance okSmall [[3],[4,1,2],[]] [[1,2],[3],[4]] = 1) := by
  refine ⟨?_, ?_, by decide⟩
  · intro d rs
    simp [brokenPairsDistance, bpdTerm_self]
  · intro d rs1 rs2
    have hb := sum_le_two_mul_length
      ((List.range d.numClients).map
        (fun i => bpdTerm (nbEntry rs1 (i + 1)) (nbEntry rs2 (i + 1))))
      (by
        intro x hx
        simp only [List.mem_map] at hx
        obtain ⟨i, _, rfl⟩ := hx
        exact bpdTerm_le_two _ _)
    simpa [brokenPairsDistance] using hb

/-! ## The neighbours view: claim C8 -/

theorem getD_mem {α : Type} (l : List α) (k : Nat) (dflt : α)
    (h : k < l.length) : l.getD k dflt ∈ l := by
  induction l generalizing k with
  | nil => simp at h
  | cons a as ih =>
    cases k with
    | zero => simp
    | succ k =>
      simp only [List.getD_cons_succ, List.mem_cons]
      exact Or.inr (ih k (by simpa using h))

theorem nodup_getD_ne (r : List Nat) (hnd : r.Nodup) (j k : Nat)
    (hj : j < k) (hk : k < r.length) : r.getD j 0 ≠ r.getD k 0 := by
  induction r generalizing j k with
  | nil => simp at hk
  | cons a as ih =>
    cases k with
    | zero => omega
    | succ k =>
      cases j with
      | zero =>
        simp only [List.getD_cons_zero, List.getD_cons_succ]
        have ha : a ∉ as := (List.nodup_cons.mp hnd).1
        intro hEq
        exact ha (hEq ▸ getD_mem as k 0 (by simpa using hk))
      | succ j =>
        simp only [List.getD_cons_succ]
        exact ih (List.nodup_cons.mp hnd).2 j k (by omega) (by simpa using hk)

/-- `nbrsInAux` at a first occurrence: if the client at index `k` does not
occur earlier, the scan returns the element before it (the accumulator
standing in at index 0) and the element after it (0 past the end). -/
theorem nbrsInAux_at (r : List Nat) (k prev : Nat) (hk : k < r.length)
    (hfirst : ∀ j < k, r.getD j 0 ≠ r.getD k 0) :
    nbrsInAux (r.getD k 0) prev r =
      some ((prev :: r).getD k 0, r.getD (k + 1) 0) := by
  induction r generalizing k prev with
  | nil => simp at hk
  | cons a as ih =>
    cases k with
    | zero =>
      simp only [List.getD_cons_zero, nbrsInAux, if_pos rfl, List.getD_cons_succ]
      cases as <;> rfl
    | succ k =>
      have hne : a ≠ as.getD k 0 := by
        have := hfirst 0 (by omega)
        simpa using this
      simp only [List.getD_cons_succ, nbrsInAux, if_neg hne]
      exact ih k a (by simpa using hk) (fun j hj => by
        have := hfirst (j + 1) (by omega)
        simpa using this)

/-- A scan for an absent client returns `none`. -/
theorem nbrsInAux_none (r : List Nat) (c prev : Nat) (hc : c ∉ r) :
    nbrsInAux c prev r = none := by
  induction r generalizing prev with
  | nil => rfl
  | cons a as ih =>
    simp only [List.mem_cons, not_or] at hc
    have hne : ¬(a = c) := fun h => hc.1 h.symm
    simp only [nbrsInAux, if_neg hne]
    exact ih _ hc.2

/-- **C8.** The neighbours view is consistent: in a valid route list (no
client twice, no stray depot index), for every route `i` and every 0-based
index `k` into it, the neighbours entry of the client there is the pair of
clients at the neighbouring node positions (`clientAt r k` and
`clientAt r (k + 2)` around node position `k + 1`), with the depot sentinel
at the route ends; and on OkSmall, routes `[[3,4],[],[1,2]]` yield the
neighbours array `[(0,0), (0,2), (1,0), (0,4), (3,0)]`. -/
theorem claim_C8_neighbours :
    (∀ (rs : List (List Nat)) (i k : Nat),
      rs.flatten.Nodup → 0 ∉ rs.flatten →
      i < rs.length → k < (rs.getD i []).length →
      nbEntry rs ((rs.getD i []).getD k 0) =
        (clientAt (rs.getD i []) k, clientAt (rs.getD i []) (k + 2)))
    ∧ (List.range 5).map (nbEntry [[3, 4], [], [1, 2]]) =
        [(0, 0), (0, 2), (1, 0), (0, 4), (3, 0)] := by
  constructor
  · intro rs i k hnd h0 hi hk
    induction rs generalizing i with
    | nil => simp at hi
    | cons r rest ih =>
      rw [List.flatten_cons, List.nodup_append] at hnd
      rw [List.flatten_cons, List.mem_append, not_or] at h0
      cases i with
      | zero =>
        simp only [List.getD_cons_zero] at hk ⊢
        have hc0 : r.getD k 0 ≠ 0 := by
          intro h
          exact h0.1 (h ▸ getD_mem r k 0 hk)
        have hfirst : ∀ j < k, r.getD j 0 ≠ r.getD k 0 :=
          fun j hj => nodup_getD_ne r hnd.1 j k hj hk
        have hsome := nbrsInAux_at r k 0 hk hfirst
        have h1 : (0 :: r).getD k 0 = clientAt r k := by
          unfold clientAt nodesOf
          cases k with
          | zero => rfl
          | succ k =>
            simp only [List.getD_cons_succ]
            have hklt : k < r.length := by omega
            exact (List.getD_append _ _ _ _ hklt).symm
        have h2 : r.getD (k + 1) 0 = clientAt r (k + 2) := by
          have hstep : clientAt r (k + 2) = (r ++ [0]).getD (k + 1) 0 := rfl
          rw [hstep]
          rcases Nat.lt_or_ge (k + 1) r.length with hlt | hge
          · exact (List.getD_append _ _ _ _ hlt).symm
          · have hL : r.getD (k + 1) 0 = 0 := List.getD_eq_default _ _ hge
            have hR : (r ++ [0]).getD (k + 1) 0 = 0 := by
              rw [List.getD_append_right _ _ _ _ hge]
              cases (k + 1 - r.length) <;> rfl
            rw [hL, hR]
        rw [nbEntry, if_neg hc0, neighbours, nbrsIn, hsome, Option.getD_some,
          h1, h2]
      | succ i =>
        simp only [List.getD_cons_succ] at hk ⊢
        have hcmem : (rest.getD i []).getD k 0 ∈ rest.flatten := by
          have h1 : (rest.getD i []).getD k 0 ∈ rest.getD i [] :=
            getD_mem _ k 0 hk
          have h2 : rest.getD i [] ∈ rest :=
            getD_mem _ i [] (by simpa using hi)
          exact List.mem_flatten.mpr ⟨_, h2, h1⟩
        have hc0 : (rest.getD i []).getD k 0 ≠ 0 := by
          intro h
          exact h0.2 (h ▸ hcmem)
        have hnr : (rest.getD i []).getD k 0 ∉ r := by
          intro hmem
          exact hnd.2.2 hmem hcmem
        have hrec := ih i hnd.2.1 h0.2 (by simpa using hi) hk
        rw [nbEntry, if_neg hc0] at hrec ⊢
        rw [neighbours, nbrsIn, nbrsInAux_none r _ 0 hnr, Option.getD_none]
        exact hrec
  · decide

/-- **C8 witness**: the general consistency statement instantiated on the
OkSmall scenario routes `[[3,4],[],[1,2]]` at route 2, index 0 (client 1). -/
theorem claim_C8_neighbours_witness :
    ([[3, 4], [], [1, 2]] : List (List Nat)).flatten.Nodup ∧
    0 ∉ ([[3, 4], [], [1, 2]] : List (List Nat)).flatten ∧
    nbEntry [[3, 4], [], [1, 2]]
        ((([[3, 4], [], [1, 2]] : List (List Nat)).getD 2 []).getD 0 0) =
      (clientAt (([[3, 4], [], [1, 2]] : List (List Nat)).getD 2 []) 0,
        clientAt (([[3, 4], [], [1, 2]] : List (List Nat)).getD 2 []) 2) :=
  ⟨by decide, by decide,
    claim_C8_neighbours.1 [[3, 4], [], [1, 2]] 2 0 (by decide) (by decide)
      (by decide) (by decide)⟩

/-! ## Parenthesization invariance of `merge`: claim C2 -/

/-- A parenthesization of a non-empty sequence of singleton segments: a
binary tree whose leaves, read left to right, are the client sequence. -/
inductive MTree where
  | leaf (c : Nat)
  | branch (l r : MTree)
  deriving Repr, DecidableEq

/-- The client sequence of a parenthesization. -/
def MTree.leaves : MTree → List Nat
  | .leaf c => [c]
  | .branch l r => l.leaves ++ r.leaves

/-- Evaluate a parenthesization: singletons at the leaves, `merge` at the
branches. -/
def MTree.eval (d : Data) : MTree → TWS
  | .leaf c => TWS.single d c
  | .branch l r => TWS.merge d (l.eval d) (r.eval d)

theorem MTree.leaves_ne_nil (t : MTree) : t.leaves ≠ [] := by
  induction t with
  | leaf c => simp [MTree.leaves]
  | branch l r ihl ihr => simp [MTree.leaves, ihl]

theorem foldl_merge_wf (d : Data) (hw : ∀ c, d.twEarly c ≤ d.twLate c)
    (l : List Nat) (acc : TWS) (ha : acc.Wf) :
    (l.foldl (fun x y => TWS.merge d x (TWS.single d y)) acc).Wf := by
  induction l generalizing acc with
  | nil => exact ha
  | cons y t ih => exact ih _ (TWS.merge_wf d acc _ ha (hw y))

theorem twsOf_wf (d : Data) (hw : ∀ c, d.twEarly c ≤ d.twLate c)
    (xs : List Nat) : (twsOf d xs).Wf := by
  cases xs with
  | nil => exact hw 0
  | cons c rest => exact foldl_merge_wf d hw rest _ (hw c)

theorem foldl_merge_hoist (d : Data) (hw : ∀ c, d.twEarly c ≤ d.twLate c)
    (l : List Nat) (a b : TWS) (ha : a.Wf) (hb : b.Wf) :
    l.foldl (fun x y => TWS.merge d x (TWS.single d y)) (TWS.merge d a b) =
      TWS.merge d a (l.foldl (fun x y => TWS.merge d x (TWS.single d y)) b) := by
  induction l generalizing b with
  | nil => rfl
  | cons y t ih =>
    simp only [List.foldl_cons]
    rw [TWS.merge_assoc d a b (TWS.single d y) ha hb (hw y)]
    exact ih (TWS.merge d b (TWS.single d y)) (TWS.merge_wf d b _ hb (hw y))

/-- The TWS of a concatenation is the `merge` of the two TWS — the key
consequence of associativity that lets prefix/suffix caches evaluate
arbitrary recombinations. -/
theorem twsOf_append (d : Data) (hw : ∀ c, d.twEarly c ≤ d.twLate c)
    (xs ys : List Nat) (hx : xs ≠ []) (hy : ys ≠ []) :
    twsOf d (xs ++ ys) = TWS.merge d (twsOf d xs) (twsOf d ys) := by
  match xs, ys with
  | x :: xs', y :: ys' =>
    show twsOf d (x :: (xs' ++ y :: ys')) = _
    simp only [twsOf]
    rw [List.foldl_append, List.foldl_cons]
    exact foldl_merge_hoist d hw ys' _ (TWS.single d y)
      (foldl_merge_wf d hw xs' _ (hw x)) (hw y)

theorem MTree.eval_eq_twsOf (d : Data) (hw : ∀ c, d.twEarly c ≤ d.twLate c)
    (t : MTree) : t.eval d = twsOf d t.leaves := by
  induction t with
  | leaf c => rfl
  | branch l r ihl ihr =>
    simp only [MTree.eval, MTree.leaves, ihl, ihr]
    exact (twsOf_append d hw _ _ (MTree.leaves_ne_nil l)
      (MTree.leaves_ne_nil r)).symm

/-- **C2.** On any instance with well-formed client windows, `merge` over
singleton segments is associative in the strong sense the spec states: any
two parenthesizations of the same client sequence evaluate to the same
segment — all four scalars (and hence `totalTimeWarp`) agree. -/
theorem claim_C2_merge_associative :
    ∀ d : Data, (∀ c, d.twEarly c ≤ d.twLate c) →
      ∀ t₁ t₂ : MTree, t₁.leaves = t₂.leaves →
        t₁.eval d = t₂.eval d ∧
          (t₁.eval d).totalTimeWarp = (t₂.eval d).totalTimeWarp := by
  intro d hw t1 t2 h
  have he : t1.eval d = t2.eval d := by
    rw [MTree.eval_eq_twsOf d hw t1, MTree.eval_eq_twsOf d hw t2, h]
  exact ⟨he, by rw [he]⟩

theorem okSmall_wf : ∀ c, okSmall.twEarly c ≤ okSmall.twLate c := by
  intro c
  match c with
  | 0 | 1 | 2 | 3 | 4 => decide
  | n + 5 =>
    show ([0, 15600, 12000, 8400, 8400] : List Int).getD (n + 5) 0 ≤
      ([45000, 22500, 19500, 15300, 15300] : List Int).getD (n + 5) 0
    rw [List.getD_eq_default _ _ (by simp),
      List.getD_eq_default _ _ (by simp)]

/-- **C2 witness**: the two parenthesizations of the OkSmall sequence
`0, 1, 3, 0` (the first time-warp route of §8, scenario 6) coincide. -/
theorem claim_C2_merge_associative_witness :
    (MTree.branch (MTree.branch (MTree.branch (MTree.leaf 0) (MTree.leaf 1))
        (MTree.leaf 3)) (MTree.leaf 0)).leaves =
      (MTree.branch (MTree.leaf 0) (MTree.branch (MTree.leaf 1)
        (MTree.branch (MTree.leaf 3) (MTree.leaf 0)))).leaves ∧
    (MTree.branch (MTree.branch (MTree.branch (MTree.leaf 0) (MTree.leaf 1))
        (MTree.leaf 3)) (MTree.leaf 0)).eval okSmall =
      (MTree.branch (MTree.leaf 0) (MTree.branch (MTree.leaf 1)
        (MTree.branch (MTree.leaf 3) (MTree.leaf 0)))).eval okSmall :=
  ⟨rfl, (claim_C2_merge_associative okSmall okSmall_wf _ _ rfl).1⟩

/-! ## The local-search state and the `Exchange<N, M>` operator

The mutable solution worked on by the operators is the list of the routes'
client lists.  In a valid state every client occurs at most once, so a
client index identifies its node; a pointer is that index or one of a
route's two depot sentinels.  `evaluate` and `apply` below are translated
from `src/pyvrp/cpp/educate/Exchange.h`; node-field reads (`position`,
`route`, `twBefore`, …) become positional reads of the state. -/

/-- A node pointer: a client node, or a route's depot sentinel. -/
inductive Ptr where
  | node (c : Nat)
  | depot (r : Nat) (atStart : Bool)
  deriving Repr, DecidableEq

/-- The local-search solution state. -/
abbrev Sol := List (List Nat)

/-- The index of the first occurrence of a client in a client list. -/
def idxIn (c : Nat) : List Nat → Option Nat
  | [] => none
  | x :: t => if x = c then some 0 else (idxIn c t).map (· + 1)

def findClientAux (c : Nat) : Sol → Nat → Option (Nat × Nat)
  | [], _ => none
  | r :: rest, i =>
    match idxIn c r with
    | some j => some (i, j + 1)
    | none => findClientAux c rest (i + 1)

/-- The route index and 1-based position of a client node. -/
def findClient (s : Sol) (c : Nat) : Option (Nat × Nat) :=
  findClientAux c s 0

/-- `node->route`, as a route index. -/
def routeIdxOf (s : Sol) : Ptr → Nat
  | .node c => ((findClient s c).getD (0, 0)).1
  | .depot r _ => r

/-- `node->position`: 0 for a start depot, `size + 1` for an end depot. -/
def posOf (s : Sol) : Ptr → Nat
  | .node c => ((findClient s c).getD (0, 0)).2
  | .depot r atStart => if atStart then 0 else (s.getD r []).length + 1

/-- `node->client`. -/
def clientOf : Ptr → Nat
  | .node c => c
  | .depot _ _ => 0

/-- `node->isDepot()`. -/
def Ptr.isDepot : Ptr → Bool
  | .node _ => false
  | .depot _ _ => true

/-- The client list of the route a pointer lives in. -/
def routeOf (s : Sol) (x : Ptr) : List Nat :=
  s.getD (routeIdxOf s x) []

/-- The node found at a position of a route. -/
def nodeAtPos (s : Sol) (r pos : Nat) : Ptr :=
  if pos = 0 then .depot r true
  else
    match (s.getD r [])[pos - 1]? with
    | some c => .node c
    | none => .depot r false

/-- `n(node)`: the successor in the linked route structure. -/
def nextOf (s : Sol) (x : Ptr) : Ptr :=
  nodeAtPos s (routeIdxOf s x) (posOf s x + 1)

/-- `p(node)`: the predecessor in the linked route structure. -/
def prevOf (s : Sol) (x : Ptr) : Ptr :=
  nodeAtPos s (routeIdxOf s x) (posOf s x - 1)

/-- Translated from `Exchange<N, M>::containsDepot` (Exchange.h:43-53).
Every call site has `segLength ≥ 1`, so the `size_t` expression
`position + segLength - 1` never wraps and truncated subtraction is exact. -/
def containsDepot (s : Sol) (x : Ptr) (segLength : Nat) : Bool :=
  x.isDepot || decide ((routeOf s x).length < posOf s x + segLength - 1)

/-- The 64-bit wrap modulus of `size_t` arithmetic. -/
def W64 : Nat := 2 ^ 64

/-- Translated from `Exchange<N, M>::overlap` (Exchange.h:55-63).  The C++
computes `V->position + M - 1` in `size_t`; when `M = 0` and
`V->position = 0` it wraps around to `2^64 − 1` and the first comparison
becomes trivially true.  `(posV + M + (2^64 − 1)) % 2^64` is exactly the
`size_t` value whenever `posV + M < 2^64`.  (`posU + N - 1` has `N ≥ 1` by
`static_assert`, so it does not wrap.) -/
def overlap (N M : Nat) (s : Sol) (U V : Ptr) : Bool :=
  routeIdxOf s U == routeIdxOf s V
    && decide (posOf s U ≤ (posOf s V + M + (W64 - 1)) % W64)
    && decide (posOf s V ≤ posOf s U + N - 1)

/-- Translated from `Exchange<N, M>::adjacent` (Exchange.h:65-72). -/
def adjacent (N M : Nat) (s : Sol) (U V : Ptr) : Bool :=
  routeIdxOf s U == routeIdxOf s V
    && (posOf s U + N == posOf s V || posOf s V + M == posOf s U)

/-- Translated from `Exchange<N, M>::evalRelocateMove` (Exchange.h:74-149).
The cached `twBefore`/`twAfter` of `p(U)`, `n(endU)`, `V` and `n(V)` are
the prefix/suffix TWS at their positions; the chained
`deltaCost += …; deltaCost -= …` updates become the `d1 … d3` bindings. -/
def evalRelocateMove (N : Nat) (d : Data) (p : Pen) (s : Sol) (U V : Ptr) :
    Int :=
  let rU := routeOf s U
  let rV := routeOf s V
  let posU := posOf s U
  let posV := posOf s V
  let endUc := if N = 1 then clientOf U else clientAt rU (posU + N - 1)
  let current := distBetween d rU (posU - 1) (posU + N)
    + d.dist (clientOf V) (clientAt rV (posV + 1))
  let proposed := d.dist (clientOf V) (clientOf U)
    + distBetween d rU posU (posU + N - 1)
    + d.dist endUc (clientAt rV (posV + 1))
    + d.dist (clientAt rU (posU - 1)) (clientAt rU (posU + N))
  let deltaCost := proposed - current
  if routeIdxOf s U ≠ routeIdxOf s V then
    if routeIsFeasible d rU && decide (0 ≤ deltaCost) then deltaCost
    else
      let uTWS := TWS.merge d (twBefore d rU (posU - 1)) (twAfter d rU (posU + N))
      let d1 := deltaCost + twPenalty p uTWS.totalTimeWarp
        - twPenalty p (routeTW d rU)
      let loadDiff := loadBetween d rU posU (posU + N - 1)
      let d2 := d1 + loadPenalty d p (sumLoad d rU - loadDiff)
        - loadPenalty d p (sumLoad d rU)
      if 0 ≤ d2 then d2
      else
        let d3 := d2 + loadPenalty d p (sumLoad d rV + loadDiff)
          - loadPenalty d p (sumLoad d rV)
        let vTWS := TWS.merge d (TWS.merge d (twBefore d rV posV)
          (twBetween d rU posU (posU + N - 1))) (twAfter d rV (posV + 1))
        d3 + twPenalty p vTWS.totalTimeWarp - twPenalty p (routeTW d rV)
  else
    if !(routeHasTW d rU) && decide (0 ≤ deltaCost) then deltaCost
    else if posU < posV then
      let tws := TWS.merge d (TWS.merge d (TWS.merge d
        (twBefore d rU (posU - 1))
        (twBetween d rU (posU + N) posV))
        (twBetween d rU posU (posU + N - 1)))
        (twAfter d rU (posV + 1))
      deltaCost + twPenalty p tws.totalTimeWarp - twPenalty p (routeTW d rU)
    else
      let tws := TWS.merge d (TWS.merge d (TWS.merge d
        (twBefore d rU posV)
        (twBetween d rU posU (posU + N - 1)))
        (twBetween d rU (posV + 1) (posU - 1)))
        (twAfter d rU (posU + N))
      deltaCost + twPenalty p tws.totalTimeWarp - twPenalty p (routeTW d rU)

/-- Translated from `Exchange<N, M>::evalSwapMove` (Exchange.h:151-236). -/
def evalSwapMove (N M : Nat) (d : Data) (p : Pen) (s : Sol) (U V : Ptr) :
    Int :=
  let rU := routeOf s U
  let rV := routeOf s V
  let posU := posOf s U
  let posV := posOf s V
  let endUc := if N = 1 then clientOf U else clientAt rU (posU + N - 1)
  let endVc := if M = 1 then clientOf V else clientAt rV (posV + M - 1)
  let current := distBetween d rU (posU - 1) (posU + N)
    + distBetween d rV (posV - 1) (posV + M)
  let proposed := d.dist (clientAt rU (posU - 1)) (clientOf V)
    + distBetween d rV posV (posV + M - 1)
    + d.dist endVc (clientAt rU (posU + N))
    + d.dist (clientAt rV (posV - 1)) (clientOf U)
    + distBetween d rU posU (posU + N - 1)
    + d.dist endUc (clientAt rV (posV + M))
  let deltaCost := proposed - current
  if routeIdxOf s U ≠ routeIdxOf s V then
    if routeIsFeasible d rU && routeIsFeasible d rV && decide (0 ≤ deltaCost)
    then deltaCost
    else
      let uTWS := TWS.merge d (TWS.merge d (twBefore d rU (posU - 1))
        (twBetween d rV posV (posV + M - 1))) (twAfter d rU (posU + N))
      let d1 := deltaCost + twPenalty p uTWS.totalTimeWarp
        - twPenalty p (routeTW d rU)
      let vTWS := TWS.merge d (TWS.merge d (twBefore d rV (posV - 1))
        (twBetween d rU posU (posU + N - 1))) (twAfter d rV (posV + M))
      let d2 := d1 + twPenalty p vTWS.totalTimeWarp - twPenalty p (routeTW d rV)
      let loadU := loadBetween d rU posU (posU + N - 1)
      let loadV := loadBetween d rV posV (posV + M - 1)
      let loadDiff := loadU - loadV
      let d3 := d2 + loadPenalty d p (sumLoad d rU - loadDiff)
        - loadPenalty d p (sumLoad d rU)
      d3 + loadPenalty d p (sumLoad d rV + loadDiff)
        - loadPenalty d p (sumLoad d rV)
  else
    if !(routeHasTW d rU) && decide (0 ≤ deltaCost) then deltaCost
    else if posU < posV then
      let tws := TWS.merge d (TWS.merge d (TWS.merge d (TWS.merge d
        (twBefore d rU (posU - 1))
        (twBetween d rU posV (posV + M - 1)))
        (twBetween d rU (posU + N) (posV - 1)))
        (twBetween d rU posU (posU + N - 1)))
        (twAfter d rU (posV + M))
      deltaCost + twPenalty p tws.totalTimeWarp - twPenalty p (routeTW d rU)
    else
      let tws := TWS.merge d (TWS.merge d (TWS.merge d (TWS.merge d
        (twBefore d rU (posV - 1))
        (twBetween d rU posU (posU + N - 1)))
        (twBetween d rU (posV + M) (posU - 1)))
        (twBetween d rU posV (posV + M - 1)))
        (twAfter d rU (posU + N))
      deltaCost + twPenalty p tws.totalTimeWarp - twPenalty p (routeTW d rU)

/-- Translated from `Exchange<N, M>::evaluate` (Exchange.h:238-265).
The pointer comparison `U == n(V)` of the `M = 0` branch is pointer
equality of nodes: same route and `posU = posV + 1` (`U` is a client node
there, having passed the depot filter). -/
def evaluateEx (N M : Nat) (d : Data) (p : Pen) (s : Sol) (U V : Ptr) : Int :=
  if containsDepot s U N || overlap N M s U V then 0
  else if decide (0 < M) && containsDepot s V M then 0
  else if M = 0 then
    if routeIdxOf s U == routeIdxOf s V && posOf s U == posOf s V + 1 then 0
    else evalRelocateMove N d p s U V
  else if N == M && decide (clientOf V ≤ clientOf U) then 0
  else if adjacent N M s U V then 0
  else evalSwapMove N M d p s U V

/-- Modelled `Node::insertAfter` (spec §4.2): unlink the client pointed to
by `x` and insert it right after `y` (after `y`'s route's start depot when
`y` is that sentinel).  A depot `x` is left in place (no call site does
this). -/
def insertAfterInRoute (cAfter c : Nat) : List Nat → List Nat
  | [] => []
  | x :: t => if x = cAfter then x :: c :: t else x :: insertAfterInRoute cAfter c t

def insertNodeAfter (s : Sol) (x y : Ptr) : Sol :=
  match x with
  | .depot _ _ => s
  | .node c =>
    let s' := s.map (fun r => r.erase c)
    match y with
    | .node c' => s'.map (fun r => if c' ∈ r then insertAfterInRoute c' c r else r)
    | .depot rIdx true => s'.set rIdx (c :: s'.getD rIdx [])
    | .depot rIdx false => s'.set rIdx (s'.getD rIdx [] ++ [c])

/-- Modelled `Node::swapWith` (spec §4.2): the two client nodes exchange
their places in the linked structure. -/
def swapNodes (s : Sol) (x y : Ptr) : Sol :=
  match x, y with
  | .node a, .node b =>
    s.map (List.map (fun z => if z = a then b else if z = b then a else z))
  | _, _ => s

/-- The first loop of `apply` (Exchange.h:273-278): `N − M` times, capture
`prev = p(uToInsert)`, insert `uToInsert` after `insertUAfter`, and continue
from `prev`. -/
def moveLoop : Nat → Sol → Ptr → Ptr → Sol
  | 0, s, _, _ => s
  | k + 1, s, uToInsert, insertUAfter =>
    let prev := prevOf s uToInsert
    let s' := insertNodeAfter s uToInsert insertUAfter
    moveLoop k s' prev insertUAfter

/-- The second loop of `apply` (Exchange.h:281-286): `min(N, M)` times, swap
`U` with `V` and advance both through the updated state. -/
def swapLoop : Nat → Sol → Ptr → Ptr → Sol
  | 0, s, _, _ => s
  | k + 1, s, U, V =>
    let s' := swapNodes s U V
    swapLoop k s' (nextOf s' U) (nextOf s' V)

/-- Translated from `Exchange<N, M>::apply` (Exchange.h:267-287). -/
def applyEx (N M : Nat) (s : Sol) (U V : Ptr) : Sol :=
  let uToInsert :=
    if N = 1 then U else nodeAtPos s (routeIdxOf s U) (posOf s U + N - 1)
  let insertUAfter :=
    if M = 0 then V else nodeAtPos s (routeIdxOf s V) (posOf s V + M - 1)
  let s' := moveLoop (N - M) s uToInsert insertUAfter
  swapLoop (min N M) s' U V

/-! ## Facts about client lookup -/

theorem idxIn_eq_none (c : Nat) (r : List Nat) (hc : c ∉ r) :
    idxIn c r = none := by
  induction r with
  | nil => rfl
  | cons x t ih =>
    simp only [List.mem_cons, not_or] at hc
    have hne : ¬(x = c) := fun h => hc.1 h.symm
    simp [idxIn, hne, ih hc.2]

theorem idxIn_some_lt (c : Nat) (r : List Nat) (j : Nat)
    (h : idxIn c r = some j) : j < r.length := by
  induction r generalizing j with
  | nil => simp [idxIn] at h
  | cons x t ih =>
    by_cases hx : x = c
    · rw [idxIn, if_pos hx] at h
      have hj := (Option.some.inj h).symm
      subst hj
      simp
    · simp only [idxIn, if_neg hx, Option.map_eq_some'] at h
      obtain ⟨j', hj', rfl⟩ := h
      have := ih j' hj'
      simp only [List.length_cons]
      omega

theorem idxIn_first (c : Nat) (A B : List Nat) (hA : c ∉ A) :
    idxIn c (A ++ c :: B) = some A.length := by
  induction A with
  | nil => simp [idxIn]
  | cons x t ih =>
    simp only [List.mem_cons, not_or] at hA
    have hne : ¬(x = c) := fun h => hA.1 h.symm
    simp [idxIn, hne, ih hA.2]

theorem findClientAux_spec (c : Nat) (s : Sol) (ri : Nat) (A B : List Nat) :
    ∀ i0 : Nat, s.flatten.Nodup → ri < s.length →
      s.getD ri [] = A ++ c :: B →
      findClientAux c s i0 = some (i0 + ri, A.length + 1) := by
  induction s generalizing ri with
  | nil => intro i0 _ h; simp at h
  | cons r rest ih =>
    intro i0 hnd hri hroute
    rw [List.flatten_cons, List.nodup_append] at hnd
    cases ri with
    | zero =>
      simp only [List.getD_cons_zero] at hroute
      subst hroute
      have hA : c ∉ A := by
        intro hc
        have := hnd.1
        rw [List.nodup_append] at this
        exact this.2.2 hc (by simp)
      simp [findClientAux, idxIn_first c A B hA]
    | succ ri =>
      simp only [List.getD_cons_succ] at hroute
      have hmem : c ∈ rest.flatten := by
        refine List.mem_flatten.mpr ⟨A ++ c :: B, ?_, by simp⟩
        rw [← hroute]
        exact getD_mem rest ri [] (by simpa using hri)
      have hnr : c ∉ r := fun hc => hnd.2.2 hc hmem
      have := ih ri (i0 + 1) hnd.2.1 (by simpa using hri) hroute
      simp only [findClientAux, idxIn_eq_none c r hnr]
      rw [this]
      congr 2
      omega

/-- In a duplicate-free state, a client found in route `ri` at list index
`|A|` resolves to route index `ri` and position `|A| + 1`. -/
theorem findClient_spec (c : Nat) (s : Sol) (ri : Nat) (A B : List Nat)
    (hnd : s.flatten.Nodup) (hri : ri < s.length)
    (hroute : s.getD ri [] = A ++ c :: B) :
    findClient s c = some (ri, A.length + 1) := by
  have := findClientAux_spec c s ri A B 0 hnd hri hroute
  simpa [findClient] using this

theorem findClientAux_bounds (c : Nat) (s : Sol) :
    ∀ (i0 ri pos : Nat), findClientAux c s i0 = some (ri, pos) →
      i0 ≤ ri ∧ ri - i0 < s.length ∧ 1 ≤ pos ∧
        pos ≤ (s.getD (ri - i0) []).length := by
  induction s with
  | nil => intro i0 ri pos h; simp [findClientAux] at h
  | cons r rest ih =>
    intro i0 ri pos h
    rw [findClientAux] at h
    cases hidx : idxIn c r with
    | some j =>
      rw [hidx] at h
      simp only [Option.some.injEq, Prod.mk.injEq] at h
      obtain ⟨rfl, rfl⟩ := h
      have := idxIn_some_lt c r j hidx
      refine ⟨le_refl _, by simp, by omega, ?_⟩
      simp only [Nat.sub_self, List.getD_cons_zero]
      omega
    | none =>
      rw [hidx] at h
      obtain ⟨h1, h2, h3, h4⟩ := ih (i0 + 1) ri pos h
      refine ⟨by omega, by simp only [List.length_cons]; omega, h3, ?_⟩
      have hstep : (r :: rest).getD (ri - i0) [] = rest.getD (ri - (i0 + 1)) [] := by
        have : ri - i0 = (ri - (i0 + 1)) + 1 := by omega
        rw [this, List.getD_cons_succ]
      rw [hstep]
      exact h4

theorem posOf_node_le (s : Sol) (c : Nat) :
    posOf s (.node c) ≤ (routeOf s (.node c)).length := by
  simp only [posOf, routeOf, routeIdxOf]
  cases h : findClient s c with
  | none => simp
  | some pr =>
    obtain ⟨ri, pos⟩ := pr
    have hb := findClientAux_bounds c s 0 ri pos h
    simpa using hb.2.2.2

theorem posOf_node_pos (s : Sol) (c : Nat) (hc : c ∈ s.flatten)
    (hnd : s.flatten.Nodup) : 1 ≤ posOf s (.node c) := by
  obtain ⟨r, hr, hcr⟩ := List.mem_flatten.mp hc
  obtain ⟨ri, hri, hrieq⟩ := List.getElem_of_mem hr
  obtain ⟨A, B, hdecomp⟩ := List.append_of_mem hcr
  have hfind := findClient_spec c s ri A B hnd hri
    (by rw [List.getD_eq_getElem s [] hri, hrieq, hdecomp])
  simp only [posOf]
  rw [hfind]
  simp

/-! ## Pre-filter claims: C6 and C10 -/

/-- Integer-read overlap implies the `size_t` overlap test of the code,
provided positions are small enough that only the intended `M = 0 ∧
posV = 0` wrap occurs. -/
theorem overlapZ_imp_overlap (N M : Nat) (s : Sol) (U V : Ptr)
    (hN : 1 ≤ N) (hB : posOf s V + M < W64)
    (hr : routeIdxOf s U = routeIdxOf s V)
    (hz1 : (posOf s U : Int) ≤ (posOf s V : Int) + (M : Int) - 1)
    (hz2 : (posOf s V : Int) ≤ (posOf s U : Int) + (N : Int) - 1) :
    overlap N M s U V = true := by
  have hge1 : 1 ≤ posOf s V + M := by omega
  have hmod : (posOf s V + M + (W64 - 1)) % W64 = posOf s V + M - 1 := by
    have h1 : posOf s V + M + (W64 - 1) = (posOf s V + M - 1) + W64 := by
      have : 1 ≤ W64 := by norm_num [W64]
      omega
    rw [h1, Nat.add_mod_right]
    exact Nat.mod_eq_of_lt (by omega)
  unfold overlap
  rw [hmod, hr]
  simp only [beq_self_eq_true, Bool.true_and, Bool.and_eq_true,
    decide_eq_true_eq]
  omega

/-- **C6.** `evaluate(U, V)` returns delta 0 whenever any pre-filter
condition holds: `U`'s segment includes a depot sentinel; (for `M > 0`)
`V`'s segment does; the segments overlap in the same route, read over the
integers; `M = 0` and `U = n(V)`; `M > 0` and the segments are adjacent in
the same route; or `N = M` and `U.client ≥ V.client`. -/
theorem claim_C6_prefilters :
    ∀ (N M : Nat) (d : Data) (p : Pen) (s : Sol) (U V : Ptr),
      1 ≤ N → M ≤ N → posOf s V + M < W64 →
      (containsDepot s U N = true
        ∨ (routeIdxOf s U = routeIdxOf s V
            ∧ (posOf s U : Int) ≤ (posOf s V : Int) + (M : Int) - 1
            ∧ (posOf s V : Int) ≤ (posOf s U : Int) + (N : Int) - 1)
        ∨ (0 < M ∧ containsDepot s V M = true)
        ∨ (M = 0 ∧ routeIdxOf s U = routeIdxOf s V
            ∧ posOf s U = posOf s V + 1)
        ∨ (0 < M ∧ adjacent N M s U V = true)
        ∨ (N = M ∧ clientOf V ≤ clientOf U)) →
      evaluateEx N M d p s U V = 0 := by
  intro N M d p s U V hN hNM hB hdisj
  unfold evaluateEx
  by_cases h1 : (containsDepot s U N || overlap N M s U V) = true
  · rw [if_pos h1]
  · rw [if_neg h1]
    simp only [Bool.or_eq_true, not_or] at h1
    obtain ⟨hcu, hov⟩ := h1
    by_cases h2 : (decide (0 < M) && containsDepot s V M) = true
    · rw [if_pos h2]
    · rw [if_neg h2]
      by_cases hM : M = 0
      · rw [if_pos hM]
        by_cases h3 : (routeIdxOf s U == routeIdxOf s V
            && posOf s U == posOf s V + 1) = true
        · rw [if_pos h3]
        · exfalso
          rcases hdisj with h | h | h | h | h | h
          · exact hcu h
          · exact hov (overlapZ_imp_overlap N M s U V hN hB h.1 h.2.1 h.2.2)
          · omega
          · refine h3 ?_
            simp only [Bool.and_eq_true, beq_iff_eq]
            exact ⟨h.2.1, h.2.2⟩
          · omega
          · omega
      · rw [if_neg hM]
        by_cases h4 : (N == M && decide (clientOf V ≤ clientOf U)) = true
        · rw [if_pos h4]
        · rw [if_neg h4]
          by_cases h5 : adjacent N M s U V = true
          · rw [if_pos h5]
          · rw [if_neg h5]
            exfalso
            rcases hdisj with h | h | h | h | h | h
            · exact hcu h
            · exact hov (overlapZ_imp_overlap N M s U V hN hB h.1 h.2.1 h.2.2)
            · refine h2 ?_
              simp only [Bool.and_eq_true, decide_eq_true_eq]
              exact ⟨h.1, h.2⟩
            · exact hM h.1
            · exact h5 h.2
            · refine h4 ?_
              simp only [Bool.and_eq_true, beq_iff_eq, decide_eq_true_eq]
              exact ⟨h.1, h.2⟩

/-- **C6 witness**: symmetry pruning on OkSmall: with `N = M = 1`,
`U = client 2`, `V = client 1` the pair is evaluated to 0. -/
theorem claim_C6_prefilters_witness :
    evaluateEx 1 1 okSmall ⟨20, 6⟩ [[1, 2], [3, 4], []]
      (.node 2) (.node 1) = 0 :=
  claim_C6_prefilters 1 1 okSmall ⟨20, 6⟩ [[1, 2], [3, 4], []]
    (.node 2) (.node 1) (by decide) (by decide)
    (by norm_num [posOf, findClient, findClientAux, idxIn, W64])
    (Or.inr (Or.inr (Or.inr (Or.inr (Or.inr ⟨rfl, by decide⟩)))))

/-- **C10.** For every relocate operator `Exchange<N, 0>` and every client
node `U`, pairing it with the start-depot sentinel `V` of its own route
(`V.position = 0`) makes `evaluate` return 0 without evaluating the move:
`V->position + M - 1` wraps in `size_t` to `2^64 − 1` and the overlap
pre-filter fires, even though over the integers the segments do not overlap
(`posU ≤ posV + 0 − 1` is false, `U` being a client at position ≥ 1). -/
theorem claim_C10_wraparound :
    ∀ (N : Nat) (d : Data) (p : Pen) (s : Sol) (c : Nat),
      1 ≤ N → c ∈ s.flatten → s.flatten.Nodup →
      (routeOf s (.node c)).length < W64 - 1 →
      evaluateEx N 0 d p s (.node c)
          (.depot (routeIdxOf s (.node c)) true) = 0
      ∧ ¬((posOf s (.node c) : Int) ≤
          (posOf s (.depot (routeIdxOf s (.node c)) true) : Int) + 0 - 1)
      ∧ (posOf s (.depot (routeIdxOf s (.node c)) true) + 0 + (W64 - 1))
          % W64 = W64 - 1 := by
  intro N d p s c hN hc hnd hb
  have hpos := posOf_node_pos s c hc hnd
  have hle := posOf_node_le s c
  have hp0 : posOf s (.depot (routeIdxOf s (.node c)) true) = 0 := rfl
  have hmod : (0 + 0 + (W64 - 1)) % W64 = W64 - 1 :=
    Nat.mod_eq_of_lt (by norm_num [W64])
  refine ⟨?_, ?_, by rw [hp0]; exact hmod⟩
  · have hov : overlap N 0 s (.node c)
        (.depot (routeIdxOf s (.node c)) true) = true := by
      unfold overlap
      rw [hp0]
      have hru : routeIdxOf s (.depot (routeIdxOf s (.node c)) true)
          = routeIdxOf s (.node c) := rfl
      rw [hru, hmod]
      simp only [beq_self_eq_true, Bool.true_and, Bool.and_eq_true,
        decide_eq_true_eq]
      constructor
      · omega
      · omega
    unfold evaluateEx
    rw [if_pos (by rw [hov, Bool.or_true])]
  · rw [hp0]
    push_cast
    omega

/-- **C10 witness**: on OkSmall, relocating client 2 before the first
client of its own route (V the route's start depot) is filtered out. -/
theorem claim_C10_wraparound_witness :
    evaluateEx 1 0 okSmall ⟨20, 6⟩ [[1, 2], [3, 4], []]
      (.node 2) (.depot (routeIdxOf [[1, 2], [3, 4], []] (.node 2)) true)
      = 0 :=
  (claim_C10_wraparound 1 okSmall ⟨20, 6⟩ [[1, 2], [3, 4], []] 2
    (by decide) (by decide) (by decide)
    (by norm_num [routeOf, routeIdxOf, findClient, findClientAux, idxIn,
      W64])).1

/-! ## Claim C1: the evaluate delta versus the true cost change

A counterexample instance: two clients in two routes; relocating client 1
after client 2 has a non-negative distance delta while client 1's route is
feasible, so `evaluate` takes the first short-circuit and returns the bare
distance delta, ignoring the time warp the move creates in the target
route. -/

def cexData : Data where
  numClients := 2
  demand := fun _ => 0
  serviceDur := fun _ => 0
  twEarly := fun _ => 0
  twLate := fun c => if c = 1 then 15 else 1000
  dist := fun i j =>
    if i = j then 0
    else if (i = 2 ∧ j = 1) ∨ (i = 1 ∧ j = 2) then 100 else 10
  nbVehicles := 2
  capacity := 100

def cexPen : Pen := ⟨1, 1⟩

def cexSol : Sol := [[1], [2]]

/-- **C1** (refuted as stated): a valid `(U, V)` pair — no pre-filter
applies — for which `Exchange<1, 0>::evaluate` returns 80 while applying the
move on a copy changes the penalized cost by 175: the
`U->route->isFeasible() && deltaCost >= 0` short-circuit returns the bare
distance delta without the time-warp penalty the move creates in `V`'s
route. -/
theorem claim_C1_counterexample :
    (containsDepot cexSol (.node 1) 1 = false
      ∧ overlap 1 0 cexSol (.node 1) (.node 2) = false
      ∧ ¬(routeIdxOf cexSol (.node 1) = routeIdxOf cexSol (.node 2)
          ∧ posOf cexSol (.node 1) = posOf cexSol (.node 2) + 1))
    ∧ evaluateEx 1 0 cexData cexPen cexSol (.node 1) (.node 2) = 80
    ∧ cost cexData cexPen (applyEx 1 0 cexSol (.node 1) (.node 2))
        - cost cexData cexPen cexSol = 175 := by
  refine ⟨⟨by decide, by decide, by decide⟩, by decide, by decide⟩

/-! ## Characterizing `apply`

The loops of `apply` are characterized on states given by explicit
decompositions `P ++ route :: Q`.  All lemmas assume the global invariant
that no client occurs twice (`s.flatten.Nodup`). -/

theorem map_eq_self_of_fixed {f : Nat → Nat} (l : List Nat)
    (h : ∀ z ∈ l, f z = z) : l.map f = l := by
  induction l with
  | nil => rfl
  | cons a t ih =>
    simp only [List.map_cons, h a (by simp), ih (fun z hz => h z (by simp [hz]))]

theorem maps_eq_self_of_fixed {f : Nat → Nat} (L : List (List Nat))
    (h : ∀ r ∈ L, ∀ z ∈ r, f z = z) :
    L.map (List.map f) = L := by
  induction L with
  | nil => rfl
  | cons r t ih =>
    simp only [List.map_cons]
    rw [map_eq_self_of_fixed r (h r (by simp)),
      ih (fun r' hr' => h r' (by simp [hr']))]

/-- The route at index `|P|` of a decomposed state. -/
theorem getD_mid (P Q : List (List Nat)) (rt : List Nat) :
    (P ++ rt :: Q).getD P.length [] = rt := by
  rw [List.getD_append_right _ _ _ _ (le_refl _), Nat.sub_self,
    List.getD_cons_zero]

theorem findClient_mid (s : Sol) (P Q : List (List Nat)) (A B : List Nat)
    (c : Nat) (hs : s = P ++ (A ++ c :: B) :: Q) (hnd : s.flatten.Nodup) :
    findClient s c = some (P.length, A.length + 1) := by
  subst hs
  exact findClient_spec c _ P.length A B hnd
    (by simp) (getD_mid P Q _)

theorem routeIdxOf_mid (s : Sol) (P Q : List (List Nat)) (A B : List Nat)
    (c : Nat) (hs : s = P ++ (A ++ c :: B) :: Q) (hnd : s.flatten.Nodup) :
    routeIdxOf s (.node c) = P.length := by
  simp only [routeIdxOf, findClient_mid s P Q A B c hs hnd, Option.getD_some]

theorem posOf_mid (s : Sol) (P Q : List (List Nat)) (A B : List Nat)
    (c : Nat) (hs : s = P ++ (A ++ c :: B) :: Q) (hnd : s.flatten.Nodup) :
    posOf s (.node c) = A.length + 1 := by
  simp only [posOf, findClient_mid s P Q A B c hs hnd, Option.getD_some]

theorem routeOf_mid (s : Sol) (P Q : List (List Nat)) (A B : List Nat)
    (c : Nat) (hs : s = P ++ (A ++ c :: B) :: Q) (hnd : s.flatten.Nodup) :
    routeOf s (.node c) = A ++ c :: B := by
  rw [routeOf, routeIdxOf_mid s P Q A B c hs hnd, hs, getD_mid]

theorem nodeAtPos_mid (s : Sol) (P Q : List (List Nat)) (A B : List Nat)
    (c : Nat) (hs : s = P ++ (A ++ c :: B) :: Q) :
    nodeAtPos s P.length (A.length + 1) = .node c := by
  subst hs
  unfold nodeAtPos
  rw [if_neg (by omega), getD_mid]
  have : (A ++ c :: B)[A.length + 1 - 1]? = some c := by
    rw [Nat.add_sub_cancel, List.getElem?_append_right (le_refl _),
      Nat.sub_self]
    simp
  rw [this]

/-- `n(node c)` in a decomposed state, when a client follows. -/
theorem nextOf_mid_cons (s : Sol) (P Q : List (List Nat)) (A B : List Nat)
    (c b : Nat) (hs : s = P ++ (A ++ c :: b :: B) :: Q)
    (hnd : s.flatten.Nodup) :
    nextOf s (.node c) = .node b := by
  rw [nextOf, routeIdxOf_mid s P Q A (b :: B) c hs hnd,
    posOf_mid s P Q A (b :: B) c hs hnd]
  subst hs
  unfold nodeAtPos
  rw [if_neg (by omega), getD_mid]
  have : (A ++ c :: b :: B)[A.length + 1 + 1 - 1]? = some b := by
    rw [Nat.add_sub_cancel, List.getElem?_append_right (by omega)]
    have h1 : A.length + 1 - A.length = 1 := by omega
    rw [h1]
    simp
  rw [this]

/-- `n(node c)` in a decomposed state, when `c` is the last client: the end
depot. -/
theorem nextOf_mid_nil (s : Sol) (P Q : List (List Nat)) (A : List Nat)
    (c : Nat) (hs : s = P ++ (A ++ [c]) :: Q) (hnd : s.flatten.Nodup) :
    nextOf s (.node c) = .depot P.length false := by
  have hs' : s = P ++ (A ++ c :: ([] : List Nat)) :: Q := by simpa using hs
  rw [nextOf, routeIdxOf_mid s P Q A [] c hs' hnd,
    posOf_mid s P Q A [] c hs' hnd]
  subst hs'
  unfold nodeAtPos
  rw [if_neg (by omega), getD_mid]
  have : (A ++ [c])[A.length + 1 + 1 - 1]? = none := by
    refine List.getElem?_eq_none ?_
    simp
  rw [this]

/-- Nodup of a flattened decomposed state yields the needed disjointness
facts for the middle route. -/
theorem flatten_mid_nodup (P Q : List (List Nat)) (rt : List Nat)
    (hnd : (P ++ rt :: Q).flatten.Nodup) :
    rt.Nodup ∧ (∀ z ∈ rt, ∀ r ∈ P, z ∉ r) ∧ (∀ z ∈ rt, ∀ r ∈ Q, z ∉ r) := by
  rw [List.flatten_append, List.flatten_cons, List.nodup_append,
    List.nodup_append] at hnd
  refine ⟨hnd.2.1.1, ?_, ?_⟩
  · intro z hz r hr hzr
    exact hnd.2.2 (List.mem_flatten.mpr ⟨r, hr, hzr⟩)
      (by simp [List.mem_append, hz])
  · intro z hz r hr hzr
    exact hnd.2.1.2.2 hz (List.mem_flatten.mpr ⟨r, hr, hzr⟩)

theorem nodup_middle_not_mem {a : Nat} {l₁ l₂ : List Nat}
    (h : (l₁ ++ a :: l₂).Nodup) : a ∉ l₁ ∧ a ∉ l₂ := by
  rw [List.nodup_append] at h
  exact ⟨fun hm => h.2.2 hm (by simp), (List.nodup_cons.mp h.2.1).1⟩

/-- `swapWith` on two clients of the same route, the first one earlier. -/
theorem swapNodes_same_route (s : Sol) (P Q : List (List Nat))
    (A m B : List Nat) (x y : Nat)
    (hs : s = P ++ (A ++ x :: m ++ y :: B) :: Q)
    (hnd : s.flatten.Nodup) :
    swapNodes s (.node x) (.node y) =
      P ++ (A ++ y :: m ++ x :: B) :: Q := by
  subst hs
  obtain ⟨hrt, hP, hQ⟩ := flatten_mid_nodup P Q _ hnd
  have hxmem : x ∈ A ++ x :: m ++ y :: B := by simp
  have hymem : y ∈ A ++ x :: m ++ y :: B := by simp
  have hrtx : (A ++ x :: (m ++ y :: B)).Nodup := by simpa using hrt
  have hxfacts := @nodup_middle_not_mem x A (m ++ y :: B) hrtx
  have hrt' : ((A ++ x :: m) ++ y :: B).Nodup := by
    simpa [List.append_assoc] using hrt
  have hyfacts := @nodup_middle_not_mem y (A ++ x :: m) B hrt'
  have hxA : x ∉ A := hxfacts.1
  have hxm : x ∉ m := fun h => hxfacts.2 (by simp [h])
  have hxB : x ∉ B := fun h => hxfacts.2 (by simp [h])
  have hxy : x ≠ y := fun h => hxfacts.2 (by simp [h])
  have hyA : y ∉ A := fun h => hyfacts.1 (by simp [h])
  have hym : y ∉ m := fun h => hyfacts.1 (by simp [h])
  have hyB : y ∉ B := hyfacts.2
  have hfix : ∀ z, z ≠ x → z ≠ y →
      (if z = x then y else if z = y then x else z) = z := by
    intro z h1 h2
    simp [h1, h2]
  simp only [swapNodes]
  rw [List.map_append, List.map_cons]
  have hPmap : P.map (List.map fun z =>
      if z = x then y else if z = y then x else z) = P := by
    refine maps_eq_self_of_fixed P ?_
    intro r hr z hz
    exact hfix z (fun h => hP x hxmem r hr (h ▸ hz))
      (fun h => hP y hymem r hr (h ▸ hz))
  have hQmap : Q.map (List.map fun z =>
      if z = x then y else if z = y then x else z) = Q := by
    refine maps_eq_self_of_fixed Q ?_
    intro r hr z hz
    exact hfix z (fun h => hQ x hxmem r hr (h ▸ hz))
      (fun h => hQ y hymem r hr (h ▸ hz))
  have hAmap : A.map (fun z =>
      if z = x then y else if z = y then x else z) = A := by
    refine map_eq_self_of_fixed A ?_
    intro z hz
    exact hfix z (fun h => hxA (h ▸ hz)) (fun h => hyA (h ▸ hz))
  have hmmap : m.map (fun z =>
      if z = x then y else if z = y then x else z) = m := by
    refine map_eq_self_of_fixed m ?_
    intro z hz
    exact hfix z (fun h => hxm (h ▸ hz)) (fun h => hym (h ▸ hz))
  have hBmap : B.map (fun z =>
      if z = x then y else if z = y then x else z) = B := by
    refine map_eq_self_of_fixed B ?_
    intro z hz
    exact hfix z (fun h => hxB (h ▸ hz)) (fun h => hyB (h ▸ hz))
  rw [hPmap, hQmap]
  congr 1
  simp only [List.map_append, List.map_cons, hAmap, hmmap, hBmap]
  simp [hxy, Ne.symm hxy]

theorem swapNodes_comm (s : Sol) (x y : Nat) :
    swapNodes s (.node x) (.node y) = swapNodes s (.node y) (.node x) := by
  simp only [swapNodes]
  by_cases hxy : x = y
  · subst hxy
    rfl
  · congr 1
    funext r
    congr 1
    funext z
    by_cases h1 : z = x
    · subst h1
      simp [hxy, Ne.symm hxy]
    · by_cases h2 : z = y
      · subst h2
        simp [hxy, Ne.symm hxy]
      · simp [h1, h2]

theorem nodup_flatten_mid_of_perm (P Q : List (List Nat)) (r1 r2 : List Nat)
    (hperm : r1.Perm r2) (hnd : (P ++ r1 :: Q).flatten.Nodup) :
    (P ++ r2 :: Q).flatten.Nodup := by
  have hp : (P ++ r1 :: Q).flatten.Perm ((P ++ r2 :: Q).flatten) := by
    rw [List.flatten_append, List.flatten_cons, List.flatten_append,
      List.flatten_cons]
    exact List.Perm.append_left _ (List.Perm.append hperm (List.Perm.refl _))
  exact hp.nodup hnd

/-- The swap loop of `apply` on two equal-length disjoint segments of one
route exchanges the segments.  The pointer pair may be given in either
orientation (the roles flip on each iteration). -/
theorem swapLoop_exchange :
    ∀ (k : Nat) (s : Sol) (P Q : List (List Nat)) (A xs m ys B : List Nat)
      (U V : Ptr),
      s = P ++ (A ++ xs ++ m ++ ys ++ B) :: Q →
      s.flatten.Nodup →
      xs.length = k → ys.length = k →
      (0 < k →
        (U = .node (xs.headD 0) ∧ V = .node (ys.headD 0)) ∨
        (U = .node (ys.headD 0) ∧ V = .node (xs.headD 0))) →
      swapLoop k s U V = P ++ (A ++ ys ++ m ++ xs ++ B) :: Q := by
  intro k
  induction k with
  | zero =>
    intro s P Q A xs m ys B U V hs hnd hx hy _
    rw [List.length_eq_zero] at hx hy
    subst hx hy hs
    rfl
  | succ k ih =>
    intro s P Q A xs m ys B U V hs hnd hx hy hor
    cases xs with
    | nil => simp at hx
    | cons x0 xs' =>
    cases ys with
    | nil => simp at hy
    | cons y0 ys' =>
    simp only [List.length_cons, Nat.succ.injEq] at hx hy
    have hperm1 : (A ++ (x0 :: xs') ++ m ++ (y0 :: ys') ++ B).Perm
        (A ++ y0 :: xs' ++ m ++ x0 :: ys' ++ B) := by
      refine List.perm_iff_count.mpr fun a => ?_
      simp only [List.count_append, List.count_cons]
      ring
    have hsw : swapNodes s U V =
        P ++ (A ++ y0 :: xs' ++ m ++ x0 :: ys' ++ B) :: Q := by
      have hcore : swapNodes s (.node x0) (.node y0) =
          P ++ (A ++ y0 :: xs' ++ m ++ x0 :: ys' ++ B) :: Q := by
        have := swapNodes_same_route s P Q A (xs' ++ m) (ys' ++ B) x0 y0
          (by rw [hs]; simp) hnd
        rw [this]
        simp
      rcases hor (Nat.succ_pos k) with ⟨hU, hV⟩ | ⟨hU, hV⟩
      · rw [hU, hV]
        simpa using hcore
      · rw [hU, hV]
        simp only [List.headD_cons]
        rw [swapNodes_comm]
        exact hcore
    have hnd1 : (P ++ (A ++ y0 :: xs' ++ m ++ x0 :: ys' ++ B) :: Q).flatten.Nodup := by
      refine nodup_flatten_mid_of_perm P Q _ _ hperm1 ?_
      rw [hs] at hnd
      exact hnd
    rw [swapLoop, hsw]
    have hres := ih (P ++ (A ++ y0 :: xs' ++ m ++ x0 :: ys' ++ B) :: Q)
      P Q (A ++ [y0]) xs' (m ++ [x0]) ys' B
      (nextOf (P ++ (A ++ y0 :: xs' ++ m ++ x0 :: ys' ++ B) :: Q) U)
      (nextOf (P ++ (A ++ y0 :: xs' ++ m ++ x0 :: ys' ++ B) :: Q) V)
      (by simp) hnd1 hx hy ?_
    · rw [hres]
      simp
    · intro hk
      have hxs' : xs' ≠ [] := by
        intro h
        rw [h] at hx
        simp at hx
        omega
      have hys' : ys' ≠ [] := by
        intro h
        rw [h] at hy
        simp at hy
        omega
      obtain ⟨bx, tx, rfl⟩ : ∃ b t, xs' = b :: t := by
        cases xs' with
        | nil => exact absurd rfl hxs'
        | cons b t => exact ⟨b, t, rfl⟩
      obtain ⟨by', ty, rfl⟩ : ∃ b t, ys' = b :: t := by
        cases ys' with
        | nil => exact absurd rfl hys'
        | cons b t => exact ⟨b, t, rfl⟩
      have hnextx : nextOf
          (P ++ (A ++ y0 :: (bx :: tx) ++ m ++ x0 :: (by' :: ty) ++ B) :: Q)
          (.node x0) = .node by' := by
        refine nextOf_mid_cons _ P Q (A ++ y0 :: (bx :: tx) ++ m)
          (ty ++ B) x0 by' ?_ hnd1
        simp
      have hnexty : nextOf
          (P ++ (A ++ y0 :: (bx :: tx) ++ m ++ x0 :: (by' :: ty) ++ B) :: Q)
          (.node y0) = .node bx := by
        refine nextOf_mid_cons _ P Q A
          (tx ++ m ++ x0 :: (by' :: ty) ++ B) y0 bx ?_ hnd1
        simp
      rcases hor (Nat.succ_pos k) with ⟨hU, hV⟩ | ⟨hU, hV⟩
      · refine Or.inr ⟨?_, ?_⟩
        · rw [hU]
          simp only [List.headD_cons]
          rw [hnextx]
        · rw [hV]
          simp only [List.headD_cons]
          rw [hnexty]
      · refine Or.inl ⟨?_, ?_⟩
        · rw [hU]
          simp only [List.headD_cons]
          rw [hnexty]
        · rw [hV]
          simp only [List.headD_cons]
          rw [hnextx]

/-- **C9.** For every same-route pure swap (`N = M > 0`) on two disjoint
equal-length client segments of one route, applying the move twice with the
same node arguments restores the original solution state — hence every
node's client sequence, prev/next links, positions and route memberships. -/
theorem claim_C9_swap_apply_involutive :
    ∀ (N : Nat) (s : Sol) (P Q : List (List Nat)) (A xs m ys B : List Nat),
      1 ≤ N →
      s = P ++ (A ++ xs ++ m ++ ys ++ B) :: Q →
      s.flatten.Nodup →
      xs.length = N → ys.length = N →
      applyEx N N (applyEx N N s (.node (xs.headD 0)) (.node (ys.headD 0)))
        (.node (xs.headD 0)) (.node (ys.headD 0)) = s := by
  intro N s P Q A xs m ys B _ hs hnd hx hy
  have happ : ∀ (t : Sol) (U V : Ptr),
      applyEx N N t U V = swapLoop N t U V := by
    intro t U V
    simp [applyEx, Nat.sub_self, Nat.min_self, moveLoop]
  rw [happ, happ]
  have h1 : swapLoop N s (.node (xs.headD 0)) (.node (ys.headD 0)) =
      P ++ (A ++ ys ++ m ++ xs ++ B) :: Q :=
    swapLoop_exchange N s P Q A xs m ys B _ _ hs hnd hx hy
      (fun _ => Or.inl ⟨rfl, rfl⟩)
  rw [h1]
  have hperm : (A ++ xs ++ m ++ ys ++ B).Perm (A ++ ys ++ m ++ xs ++ B) := by
    refine List.perm_iff_count.mpr fun a => ?_
    simp only [List.count_append]
    ring
  have hnd1 : (P ++ (A ++ ys ++ m ++ xs ++ B) :: Q).flatten.Nodup := by
    refine nodup_flatten_mid_of_perm P Q _ _ hperm ?_
    rw [hs] at hnd
    exact hnd
  have h2 : swapLoop N (P ++ (A ++ ys ++ m ++ xs ++ B) :: Q)
      (.node (xs.headD 0)) (.node (ys.headD 0)) =
      P ++ (A ++ xs ++ m ++ ys ++ B) :: Q :=
    swapLoop_exchange N _ P Q A ys m xs B _ _ rfl hnd1 hy hx
      (fun _ => Or.inr ⟨rfl, rfl⟩)
  rw [h2, ← hs]

/-- **C9 witness**: the `(2, 2)` swap of `[1,2]` with `[4,5]` in route
`[1,2,3,4,5]`, applied twice, restores the route. -/
theorem claim_C9_swap_apply_involutive_witness :
    applyEx 2 2 (applyEx 2 2 [[1, 2, 3, 4, 5]] (.node 1) (.node 4))
      (.node 1) (.node 4) = [[1, 2, 3, 4, 5]] :=
  claim_C9_swap_apply_involutive 2 [[1, 2, 3, 4, 5]] [] [] []
    [1, 2] [3] [4, 5] [] (by decide) (by simp) (by decide) rfl rfl

end VRP

